import Mathlib

/-!
# Verification of the cronitor-cli heartbeat delivery core (src/cmd/root.go)

This file shallowly embeds the delivery core of the Go program in
`src/cmd/root.go`: the notification encoder (`sendPing`'s query-string
construction, `truncateString`, `formatStamp`), the delivery engine
(`sendPing`'s six-attempt retry loop with host selection and backoff), and
the metadata resolver (`timezoneLocationName`).

Go strings are byte strings, so they are modelled as `List Nat` (each
element a byte value); `len` is `List.length` and `s[:n]` is `List.take`.
Go `float64` values are modelled as the exact rational numbers they denote
(every finite float64 is a dyadic rational); `strconv.FormatFloat` with
format 'f' and precision 3 rounds the exact value at the third decimal,
ties to even, which `formatStamp` reproduces below.
-/

set_option autoImplicit false

namespace CronitorCLI

/-- Byte string of an ASCII Lean string literal, matching the Go byte string
with the same characters (all literals used in the source are ASCII). -/
def bytes (s : String) : List Nat :=
  s.data.map Char.toNat

/-- Embedding of `truncateString` (root.go:266-272): byte-length truncation,
identity for strings at or under the limit. -/
def truncateString (s : List Nat) (length : Nat) : List Nat :=
  if s.length ≤ length then s else s.take length

/-- Decimal digit bytes of a natural number, most significant first; the
fuel argument only drives termination and any fuel above the digit count
gives the same result. -/
def natDigitsAux : Nat → Nat → List Nat
  | 0, _ => []
  | _ + 1, 0 => []
  | fuel + 1, n => natDigitsAux fuel (n / 10) ++ [48 + n % 10]

/-- Decimal rendering of a natural number as a byte string (the digits part
of Go's `%d` formatting). -/
def natStr (n : Nat) : List Nat :=
  if n = 0 then [48] else natDigitsAux (n + 1) n

/-- Go `fmt.Sprintf("%d", i)` for a (signed) integer, as a byte string. -/
def intStr (i : Int) : List Nat :=
  if i < 0 then 45 :: natStr i.natAbs else natStr i.natAbs

/-- Bytes left unescaped by Go's `url.QueryEscape`: ASCII alphanumerics and
`-`, `_`, `.`, `~`. -/
def isUnreserved (b : Nat) : Bool :=
  (65 ≤ b && b ≤ 90) || (97 ≤ b && b ≤ 122) || (48 ≤ b && b ≤ 57) ||
    b == 45 || b == 95 || b == 46 || b == 126

/-- Uppercase hexadecimal digit byte for a value below 16. -/
def hexDigitUpper (n : Nat) : Nat :=
  if n < 10 then 48 + n else 55 + n

/-- Embedding of Go's `url.QueryEscape`: unreserved bytes pass through,
space becomes `+`, every other byte becomes `%XX` with uppercase hex. -/
def queryEscape : List Nat → List Nat
  | [] => []
  | b :: rest =>
    (if isUnreserved b then [b]
     else if b == 32 then [43]
     else [37, hexDigitUpper (b / 16 % 16), hexDigitUpper (b % 16)]) ++ queryEscape rest

/-- Round the fraction `a / d` (with `d ≠ 0`) to the nearest natural
number, ties to even — the rounding `strconv.FormatFloat` applies to the
exact value of a float at the cut position. -/
def roundHalfEvenNat (a : Nat) (d : Nat) : Nat :=
  let q := a / d
  let r := a % d
  if 2 * r < d then q
  else if d < 2 * r then q + 1
  else if q % 2 = 0 then q else q + 1

/-- Embedding of `formatStamp` (root.go:303-305), i.e.
`strconv.FormatFloat(timestamp, 'f', 3, 64)` on the exact value of a finite
float64 (a rational `timestamp.num / timestamp.den`): sign, integer part,
`.`, and exactly three decimal digits of the magnitude
`|timestamp| * 1000 = (timestamp.num.natAbs * 1000) / timestamp.den`
rounded to the nearest integer, ties to even. -/
def formatStamp (timestamp : ℚ) : List Nat :=
  let n : Nat := roundHalfEvenNat (timestamp.num.natAbs * 1000) timestamp.den
  (if timestamp < 0 then [45] else []) ++
    natStr (n / 1000) ++ [46] ++ [48 + n / 100 % 10, 48 + n / 10 % 10, 48 + n % 10]

/-! ## Metadata resolver: `timezoneLocationName` (root.go:219-248) -/

/-- Embedding of Go `strings.Split(s, sep)` for a single-byte separator:
splits around every occurrence of the separator; the result is never empty
and splitting the empty string gives `[[]]`, as in Go. -/
def splitOnByte (sep : Nat) : List Nat → List (List Nat)
  | [] => [[]]
  | b :: rest =>
    if b = sep then [] :: splitOnByte sep rest
    else
      match splitOnByte sep rest with
      | [] => [[b]]
      | c :: cs => (b :: c) :: cs

/-- Embedding of Go `strings.Join(parts, sep)` for a single-byte
separator. -/
def joinWithByte (sep : Nat) (parts : List (List Nat)) : List Nat :=
  (parts.intersperse [sep]).flatten

/-- Left-to-right non-overlapping replacement; the fuel argument (called
with the string length) only drives termination. -/
def replaceAllAux : Nat → List Nat → List Nat → List Nat → List Nat
  | 0, s, _, _ => s
  | fuel + 1, s, pat, rep =>
    match s with
    | [] => []
    | b :: rest =>
      if pat.isPrefixOf s then rep ++ replaceAllAux fuel (s.drop pat.length) pat rep
      else b :: replaceAllAux fuel rest pat rep

/-- Embedding of Go `strings.Replace(s, pat, rep, -1)`: replace every
non-overlapping occurrence of `pat`, scanning left to right. -/
def replaceAll (s pat rep : List Nat) : List Nat :=
  replaceAllAux s.length s pat rep

/-- Bytes matched by the RE2 character class `\s` ( `[\t\n\f\r ]` ). -/
def isSpaceByte (b : Nat) : Bool :=
  b == 9 || b == 10 || b == 12 || b == 13 || b == 32

/-- Attempt to match the tail `\s+(\S+).+$` of the pattern
`(?m:Timezone:\s+(\S+).+$)` at the text right after a `Timezone:` literal,
returning the capture group. `\s+` must take its maximal run (backing it
off would put `\S+` on a space); `\S+` first tries its maximal run, and
when no character is left on the line for `.+` it backs off one character,
which succeeds exactly when the run has at least two characters. -/
def tdctlMatchTail (t : List Nat) : Option (List Nat) :=
  let ws := t.takeWhile isSpaceByte
  if ws.isEmpty then none
  else
    let t2 := t.drop ws.length
    let run := t2.takeWhile (fun b => !(isSpaceByte b))
    if run.isEmpty then none
    else
      match t2.drop run.length with
      | c :: _ =>
        if c ≠ 10 then some run
        else if 2 ≤ run.length then some run.dropLast else none
      | [] => if 2 ≤ run.length then some run.dropLast else none

/-- Leftmost match of `(?m:Timezone:\s+(\S+).+$)` (the regex at
root.go:228 as run by `FindStringSubmatch`): scan positions left to right,
and at each position require the literal `Timezone:` followed by a match
of the tail; return the capture group of the first success. -/
def tdctlScan : List Nat → Option (List Nat)
  | [] => none
  | b :: rest =>
    match
      (if (bytes "Timezone:").isPrefixOf (b :: rest) then
        tdctlMatchTail ((b :: rest).drop (bytes "Timezone:").length)
      else none) with
    | some g => some g
    | none => tdctlScan rest

/-- The timedatectl branch of `timezoneLocationName` (root.go:226-232):
normalize the label `Time zone` to `Timezone` in the command output, then
extract the capture group of the timezone regex, if any. -/
def tdctlParse (output : List Nat) : Option (List Nat) :=
  tdctlScan (replaceAll output (bytes "Time zone") (bytes "Timezone"))

/-- Environment visible to `timezoneLocationName`: the optional `TZ`
variable (present even when empty), the raw output of a successful
`timedatectl` run (`none` when the command errors), the target of
`/etc/localtime` when it is a symlink whose `Lstat` succeeded (`none`
otherwise; `Readlink` errors leave the target empty), and the contents of
`/etc/timezone` when readable. -/
structure TZEnv where
  tzVar : Option (List Nat)
  timedatectlOut : Option (List Nat)
  localtimeSymlinkTarget : Option (List Nat)
  etcTimezone : Option (List Nat)

/-- The `/etc/timezone` step and final fallback of `timezoneLocationName`
(root.go:243-247): return the raw file contents when readable, the empty
string otherwise. -/
def etcTimezoneStep (env : TZEnv) : Option (List Nat) :=
  match env.etcTimezone with
  | some locale => some locale
  | none => some []

/-- Embedding of `timezoneLocationName` (root.go:219-248). The result is
`some s` when the Go function returns the string `s`, and `none` when it
panics: in the symlink branch, `symlinkParts[len(symlinkParts)-2:]`
slices with a negative lower bound — a runtime panic — whenever the
nonempty link target contains no `/` (a one-segment relative target). -/
def timezoneLocationName (env : TZEnv) : Option (List Nat) :=
  match env.tzVar with
  | some locale => some locale
  | none =>
  match (match env.timedatectlOut with
         | some output => tdctlParse output
         | none => none) with
  | some ret1 => some ret1
  | none =>
  match env.localtimeSymlinkTarget with
  | some symlink =>
    if 0 < symlink.length then
      let symlinkParts := splitOnByte 47 symlink
      if 2 ≤ symlinkParts.length then
        some (joinWithByte 47 (symlinkParts.drop (symlinkParts.length - 2)))
      else none
    else etcTimezoneStep env
  | none => etcTimezoneStep env

/-! ## Delivery engine: `sendPing` (root.go:105-184) -/

/-- Process-wide read-only configuration consumed by `sendPing`: the
`dev` flag, `viper.GetString(varPingApiKey)`, and the result of
`effectiveHostname()`. -/
structure PingConfig where
  dev : Bool
  pingApiAuthKey : List Nat
  hostname : List Nat

/-- The caller-supplied arguments of one `sendPing` call. Go `*float64`
and `*int` pointers become `Option`; the `float64` timestamp is the exact
rational value of the float. -/
structure PingArgs where
  endpoint : List Nat
  uniqueIdentifier : List Nat
  message : List Nat
  tag : List Nat
  timestamp : ℚ
  duration : Option ℚ
  exitCode : Option Int

/-- What the network does to one attempt: `Client.Do` fails with a
transport error, or yields a response with a status code whose body is or
is not fully readable by `ioutil.ReadAll`. -/
inductive Outcome where
  | transportError
  | response (bodyReadable : Bool) (statusCode : Nat)
deriving DecidableEq

/-- Terminal state of one delivery sequence: the loop broke on a
successful attempt, ran out of its six attempts, or panicked on the nil
request dereference. -/
inductive PingResult where
  | succeeded
  | gaveUp
  | panicked
deriving DecidableEq

/-- Observable behaviour of one `sendPing` call: the `(try, host)` pair of
every request handed to `Client.Do` in order, the attempt numbers after
which `time.Sleep(time.Second * 2)` ran, and the terminal state. -/
structure Trace where
  requests : List (Nat × List Nat)
  sleeps : List Nat
  result : PingResult
deriving DecidableEq

/-- Host selection of attempt `i` (root.go:151-158). `var host string`
redeclares `host` as the empty string on every iteration, so the
comparison in the failover branch reads that fresh zero value. -/
def hostForAttempt (dev : Bool) (i : Nat) : List Nat :=
  let host : List Nat := []
  if dev then bytes "http://dev.cronitor.io"
  else if 2 < i ∧ host = bytes "https://cronitor.link" then bytes "https://cronitor.io"
  else bytes "https://cronitor.link"

/-- Hexadecimal digit bytes, as accepted by `net/url`'s escape parser. -/
def isHexDigitByte (b : Nat) : Bool :=
  (48 ≤ b && b ≤ 57) || (97 ≤ b && b ≤ 102) || (65 ≤ b && b ≤ 70)

/-- Every `%` in the byte string starts a well-formed `%XX` escape. -/
def validPercents : List Nat → Bool
  | [] => true
  | 37 :: a :: b :: rest => isHexDigitByte a && isHexDigitByte b && validPercents rest
  | 37 :: _ => false
  | _ :: rest => validPercents rest

/-- Models the URL validation done by `http.NewRequest` → `url.Parse` on
the ping URL: the request is built successfully exactly when the URL
contains no ASCII control byte (below 32, or 127) and no malformed
percent escape; otherwise `http.NewRequest` returns `nil` and an error. -/
def newRequestOk (uri : List Nat) : Bool :=
  uri.all (fun b => 31 < b && b ≠ 127) && validPercents uri

/-- The query string of attempt `i` (root.go:114-160): the fields are
formatted exactly as in `sendPing` — each optional field contributes its
`&name=value` piece only when present — and concatenated in the order of
the `fmt.Sprintf` at root.go:160 after `try=%d`. -/
def queryString (cfg : PingConfig) (a : PingArgs) (i : Nat) : List Nat :=
  let formattedStamp :=
    if 0 < a.timestamp then bytes "&stamp=" ++ formatStamp a.timestamp else []
  let message :=
    if 0 < a.message.length then
      bytes "&msg=" ++ queryEscape (truncateString a.message 2000)
    else []
  let pingApiAuthKey :=
    if 0 < cfg.pingApiAuthKey.length then
      bytes "&auth_key=" ++ truncateString cfg.pingApiAuthKey 50
    else []
  let hostname :=
    if 0 < cfg.hostname.length then
      bytes "&host=" ++ queryEscape (truncateString cfg.hostname 50)
    else []
  let formattedDuration :=
    match a.duration with
    | some d => bytes "&duration=" ++ formatStamp d
    | none => []
  let tag :=
    if 0 < a.tag.length then bytes "&tag=" ++ a.tag else []
  let formattedStatusCode :=
    match a.exitCode with
    | some c => bytes "&status_code=" ++ intStr c
    | none => []
  bytes "try=" ++ natStr i ++ formattedStamp ++ message ++ pingApiAuthKey ++
    hostname ++ formattedDuration ++ tag ++ formattedStatusCode

/-- The full ping URL of attempt `i`, per the `fmt.Sprintf` at
root.go:160. -/
def uriFor (cfg : PingConfig) (a : PingArgs) (i : Nat) : List Nat :=
  hostForAttempt cfg.dev i ++ [47] ++ a.uniqueIdentifier ++ [47] ++ a.endpoint ++
    [63] ++ queryString cfg a i

/-- The retry loop of `sendPing` (root.go:149-183) over the remaining
attempt numbers, driven by an outcome per attempt. When the request
cannot be built, `sendPing` ignores the `http.NewRequest` error and calls
`request.Header.Add` on the nil request — a panic, modelled by a
`panicked` trace with no further activity. A transport error logs, sleeps
2 seconds when `i > 2`, and continues; a readable response with status
below 400 breaks the loop; any other response just continues. -/
def sendPingLoop (cfg : PingConfig) (a : PingArgs) (o : Nat → Outcome) :
    List Nat → Trace
  | [] => ⟨[], [], .gaveUp⟩
  | i :: rest =>
    let host := hostForAttempt cfg.dev i
    if newRequestOk (uriFor cfg a i) then
      match o i with
      | .transportError =>
        let t := sendPingLoop cfg a o rest
        ⟨(i, host) :: t.requests, (if 2 < i then [i] else []) ++ t.sleeps, t.result⟩
      | .response bodyReadable statusCode =>
        if bodyReadable && decide (statusCode < 400) then
          ⟨[(i, host)], [], .succeeded⟩
        else
          let t := sendPingLoop cfg a o rest
          ⟨(i, host) :: t.requests, t.sleeps, t.result⟩
    else ⟨[], [], .panicked⟩

/-- Embedding of `sendPing` (root.go:105-184): the six-attempt loop
`for i := 1; i <= 6; i++`. -/
def sendPing (cfg : PingConfig) (a : PingArgs) (o : Nat → Outcome) : Trace :=
  sendPingLoop cfg a o [1, 2, 3, 4, 5, 6]

/-- Success test of one attempt, read off root.go:177-180: the body was
fully readable (`err == nil` after `ReadAll`) and `response.StatusCode <
400`; a transport error never succeeds. -/
def attemptSucceeds : Outcome → Bool
  | .transportError => false
  | .response bodyReadable statusCode => bodyReadable && decide (statusCode < 400)

/-- The attempts the loop performs from a list of attempt numbers: every
attempt up to and including the first successful one. -/
def takeUntilSucc (o : Nat → Outcome) : List Nat → List Nat
  | [] => []
  | i :: rest =>
    if attemptSucceeds (o i) then [i] else i :: takeUntilSucc o rest

/-- The parameter names of a query string, reading it back as a standard
parser would: split on `&` and take each chunk up to its first `=`. -/
def paramNames (q : List Nat) : List (List Nat) :=
  (splitOnByte 38 q).map (fun c => c.takeWhile (fun b => b ≠ 61))

/-- The present `&`-separated segments of the query string of
`queryString`, in the fixed `fmt.Sprintf` order; each element is the
chunk that follows its `&` separator. -/
def querySegs (cfg : PingConfig) (a : PingArgs) : List (List Nat) :=
  (if 0 < a.timestamp then [bytes "stamp=" ++ formatStamp a.timestamp] else []) ++
  (if 0 < a.message.length then
    [bytes "msg=" ++ queryEscape (truncateString a.message 2000)] else []) ++
  (if 0 < cfg.pingApiAuthKey.length then
    [bytes "auth_key=" ++ truncateString cfg.pingApiAuthKey 50] else []) ++
  (if 0 < cfg.hostname.length then
    [bytes "host=" ++ queryEscape (truncateString cfg.hostname 50)] else []) ++
  (match a.duration with
    | some d => [bytes "duration=" ++ formatStamp d]
    | none => []) ++
  (if 0 < a.tag.length then [bytes "tag=" ++ a.tag] else []) ++
  (match a.exitCode with
    | some c => [bytes "status_code=" ++ intStr c]
    | none => [])

/-! ## Concrete instances used by witnesses and counterexamples -/

/-- A minimal configuration: production mode, no ping API key, empty
resolved hostname. -/
def cfgBase : PingConfig := ⟨false, [], []⟩

/-- A minimal benign notification: plain identifier and endpoint, no
optional field supplied. -/
def argsBase : PingArgs := ⟨bytes "run", bytes "d3x0", [], [], 0, none, none⟩

/-- A notification whose identifier contains a control byte (`0x00`),
which makes `url.Parse` inside `http.NewRequest` fail. -/
def argsNul : PingArgs := ⟨bytes "run", bytes "jobid" ++ [0], [], [], 0, none, none⟩

/-- A network that fails every attempt with a transport error. -/
def oFail : Nat → Outcome := fun _ => Outcome.transportError

/-- A network that answers every attempt with a readable 500 response. -/
def oHttp500 : Nat → Outcome := fun _ => Outcome.response true 500

/-- A network whose first attempt transport-fails and whose later attempts
return a readable 200 response. -/
def oSecondTry : Nat → Outcome :=
  fun i => if i = 1 then Outcome.transportError else Outcome.response true 200

/-- A configuration with every optional config-derived field supplied. -/
def cfgFull : PingConfig := ⟨false, bytes "key123", bytes "myhost"⟩

/-- A notification with every optional field supplied. -/
def argsFull : PingArgs :=
  ⟨bytes "run", bytes "d3x0", bytes "hello world", bytes "abc", 1, some 2, some 0⟩

/-- A notification with no timestamp but a tag containing `&`, crafted to
inject a `stamp` parameter into the query string. -/
def argsTagAmp : PingArgs := ⟨bytes "run", bytes "d3x0", [], bytes "x&stamp=1", 0, none, none⟩

/-- An environment with the `TZ` variable set to `Europe/Paris` while
every other timezone source would yield a different zone. -/
def envParis : TZEnv :=
  ⟨some (bytes "Europe/Paris"),
   some (bytes "      Time zone: Europe/Berlin (CET, +0100)"),
   some (bytes "/usr/share/zoneinfo/America/New_York"),
   some (bytes "Asia/Tokyo")⟩

/-- An environment where `/etc/localtime` is a symlink to the relative
one-segment target `UTC` and every earlier resolution step fails. -/
def envUTCSymlink : TZEnv := ⟨none, none, some (bytes "UTC"), none⟩

/-- An environment where every timezone resolution step fails. -/
def envAllFail : TZEnv := ⟨none, none, none, none⟩

end CronitorCLI

/-! ## Theorems -/

namespace CronitorCLI

/-- Every byte produced by `natDigitsAux` is a decimal digit. -/
theorem mem_natDigitsAux {b : Nat} :
    ∀ fuel n, b ∈ natDigitsAux fuel n → 48 ≤ b ∧ b ≤ 57 := by
  intro fuel
  induction fuel with
  | zero => intro n hb; simp [natDigitsAux] at hb
  | succ fuel ih =>
    intro n hb
    cases n with
    | zero => simp [natDigitsAux] at hb
    | succ m =>
      simp only [natDigitsAux, List.mem_append, List.mem_singleton] at hb
      rcases hb with hb | hb
      · exact ih _ hb
      · omega

/-- Every byte of a rendered natural number is a decimal digit. -/
theorem mem_natStr {b n : Nat} (hb : b ∈ natStr n) : 48 ≤ b ∧ b ≤ 57 := by
  unfold natStr at hb
  split at hb
  · simp at hb; omega
  · exact mem_natDigitsAux _ _ hb

/-- A rendered natural number is never the empty string. -/
theorem natStr_ne_nil (n : Nat) : natStr n ≠ [] := by
  unfold natStr
  split
  · simp
  · rename_i h
    cases n with
    | zero => exact absurd rfl h
    | succ m => simp [natDigitsAux]

/-- Every byte of a rendered integer is a minus sign or a decimal digit. -/
theorem mem_intStr {b : Nat} {i : Int} (hb : b ∈ intStr i) :
    b = 45 ∨ (48 ≤ b ∧ b ≤ 57) := by
  unfold intStr at hb
  split at hb
  · rcases List.mem_cons.mp hb with hb | hb
    · exact Or.inl hb
    · exact Or.inr (mem_natStr hb)
  · exact Or.inr (mem_natStr hb)

/-- Every byte of a formatted stamp is a minus sign, a dot, or a decimal
digit. -/
theorem mem_formatStamp {b : Nat} {q : ℚ} (hb : b ∈ formatStamp q) :
    b = 45 ∨ b = 46 ∨ (48 ≤ b ∧ b ≤ 57) := by
  simp only [formatStamp, List.append_assoc, List.mem_append] at hb
  rcases hb with h | h | h | h
  · split at h <;> simp at h
    omega
  · have := mem_natStr h
    omega
  · simp at h
    omega
  · simp only [List.mem_cons] at h
    rcases h with h | h | h | h <;> simp_all <;> omega

/-- A hexadecimal digit byte is above the `&` byte. -/
theorem hexDigitUpper_gt (n : Nat) : 38 < hexDigitUpper n := by
  unfold hexDigitUpper
  split <;> omega

/-- `url.QueryEscape` output never contains the `&` byte: unreserved
bytes are not `&`, space becomes `+`, and escapes use `%` and hex
digits. -/
theorem queryEscape_not_mem_amp : ∀ s : List Nat, (38 : Nat) ∉ queryEscape s := by
  intro s
  induction s with
  | nil => simp [queryEscape]
  | cons b rest ih =>
    simp only [queryEscape, List.mem_append]
    rintro (h | h)
    · split at h
      · rename_i h1
        simp only [List.mem_singleton] at h
        subst h
        exact absurd h1 (by decide)
      · split at h
        · simp at h
        · have g1 := hexDigitUpper_gt (b / 16 % 16)
          have g2 := hexDigitUpper_gt (b % 16)
          simp at h
          rcases h with h | h <;> omega
    · exact ih h

/-- Truncation only keeps bytes of the input. -/
theorem mem_truncateString {b : Nat} {s : List Nat} {n : Nat}
    (hb : b ∈ truncateString s n) : b ∈ s := by
  unfold truncateString at hb
  split at hb
  · exact hb
  · exact List.take_subset n s hb

/-- Splitting a string free of the separator gives back the string. -/
theorem splitOnByte_not_mem {sep : Nat} :
    ∀ c : List Nat, sep ∉ c → splitOnByte sep c = [c] := by
  intro c
  induction c with
  | nil => intro _; rfl
  | cons b rest ih =>
    intro h
    have hb : b ≠ sep := fun hb => h (hb ▸ List.mem_cons_self b rest)
    have hrest : sep ∉ rest := fun hr => h (List.mem_cons_of_mem _ hr)
    simp only [splitOnByte, if_neg hb, ih hrest]

/-- Splitting consumes a separator-free chunk plus one separator. -/
theorem splitOnByte_append {sep : Nat} :
    ∀ c t : List Nat, sep ∉ c →
      splitOnByte sep (c ++ sep :: t) = c :: splitOnByte sep t := by
  intro c
  induction c with
  | nil => intro t _; simp [splitOnByte]
  | cons b rest ih =>
    intro t h
    have hb : b ≠ sep := fun hb => h (hb ▸ List.mem_cons_self b rest)
    have hrest : sep ∉ rest := fun hr => h (List.mem_cons_of_mem _ hr)
    simp only [List.cons_append, splitOnByte, if_neg hb]
    rw [show rest.append (sep :: t) = rest ++ sep :: t from rfl, ih t hrest]

/-- Splitting a head chunk followed by `sep`-prefixed segments recovers
exactly the chunks, provided no chunk contains the separator. -/
theorem splitOnByte_build {sep : Nat} :
    ∀ (segs : List (List Nat)) (c0 : List Nat), sep ∉ c0 →
      (∀ s ∈ segs, sep ∉ s) →
      splitOnByte sep (c0 ++ (segs.map (fun s => sep :: s)).flatten) = c0 :: segs := by
  intro segs
  induction segs with
  | nil => intro c0 h0 _; simp [splitOnByte_not_mem c0 h0]
  | cons s segs ih =>
    intro c0 h0 hsegs
    have hs : sep ∉ s := hsegs s (List.mem_cons_self s segs)
    have hsegs2 : ∀ u ∈ segs, sep ∉ u := fun u hu => hsegs u (List.mem_cons_of_mem _ hu)
    have : c0 ++ ((s :: segs).map (fun u => sep :: u)).flatten =
        c0 ++ sep :: (s ++ (segs.map (fun u => sep :: u)).flatten) := by
      simp
    rw [this, splitOnByte_append c0 _ h0, ← ih s hs hsegs2]

/-- Reading a chunk `name=value` back, the name is everything before the
first `=`. -/
theorem takeWhile_name {nm : List Nat} (v : List Nat)
    (hnm : ∀ b ∈ nm, b ≠ 61) :
    (nm ++ 61 :: v).takeWhile (fun b => b ≠ 61) = nm := by
  induction nm with
  | nil => simp
  | cons x xs ih =>
    have hx : x ≠ 61 := hnm x (List.mem_cons_self x xs)
    have ih2 := ih (fun b hb => hnm b (List.mem_cons_of_mem _ hb))
    simp only [List.cons_append, List.takeWhile_cons, decide_not]
    simp only [decide_not] at ih2
    simp [hx, ih2]

/-- C1. The spec (and the source's intent, per its own design note) says
attempts 1-2 target `https://cronitor.link` and attempts 3-6 fail over to
`https://cronitor.io`, while dev mode pins every attempt to
`http://dev.cronitor.io`. The code's failover branch compares the
freshly-zeroed loop-local `host` against `"https://cronitor.link"`, so it
can never fire: in a non-dev run every attempt, including attempt 3 and
later, targets `https://cronitor.link`, and `https://cronitor.io` is never
selected. The dev-mode half of the claim does hold. -/
theorem hostForAttempt_failover_never_fires :
    (∀ i, hostForAttempt false i = bytes "https://cronitor.link") ∧
    hostForAttempt false 3 ≠ bytes "https://cronitor.io" ∧
    (∀ i, hostForAttempt true i = bytes "http://dev.cronitor.io") := by
  refine ⟨fun i => ?_, by decide, fun i => rfl⟩
  have h2 : ¬(2 < i ∧ ([] : List Nat) = bytes "https://cronitor.link") := by
    rintro ⟨-, h⟩
    exact absurd h (by decide)
  simp only [hostForAttempt]
  rw [if_neg (by decide), if_neg h2]

/-- C7. `truncateString` truncates by byte length to exactly the limit
(2000 for the message, 50 for the auth key and the hostname): the result
length is the minimum of the input length and the limit, and an input at
or under its limit is returned byte-identically, so the URL escaping that
`sendPing` applies afterwards sees the unmodified input. -/
theorem truncateString_limits :
    ∀ (message authKey hostnameArg : List Nat),
      (message.length ≤ 2000 → truncateString message 2000 = message ∧
        queryEscape (truncateString message 2000) = queryEscape message) ∧
      (truncateString message 2000).length = min message.length 2000 ∧
      (authKey.length ≤ 50 → truncateString authKey 50 = authKey) ∧
      (truncateString authKey 50).length = min authKey.length 50 ∧
      (hostnameArg.length ≤ 50 → truncateString hostnameArg 50 = hostnameArg ∧
        queryEscape (truncateString hostnameArg 50) = queryEscape hostnameArg) ∧
      (truncateString hostnameArg 50).length = min hostnameArg.length 50 := by
  intro message authKey hostnameArg
  have len : ∀ (s : List Nat) (n : Nat), (truncateString s n).length = min s.length n := by
    intro s n
    unfold truncateString
    split <;> simp [List.length_take] <;> omega
  have ident : ∀ (s : List Nat) (n : Nat), s.length ≤ n → truncateString s n = s := by
    intro s n h
    unfold truncateString
    exact if_pos h
  exact ⟨fun h => ⟨ident _ _ h, by rw [ident _ _ h]⟩, len _ _, fun h => ident _ _ h,
    len _ _, fun h => ⟨ident _ _ h, by rw [ident _ _ h]⟩, len _ _⟩

/-- Witness for C7 at concrete inputs: a short message is returned
byte-identically, and over-limit inputs are cut to exactly the limit. -/
theorem truncateString_limits_witness :
    truncateString (bytes "hello") 2000 = bytes "hello" ∧
    (truncateString (List.replicate 2500 97) 2000).length = 2000 ∧
    (truncateString (List.replicate 60 97) 50).length = 50 := by
  refine ⟨((truncateString_limits (bytes "hello") [] []).1 (by decide)).1, ?_, ?_⟩
  · have h := (truncateString_limits (List.replicate 2500 97) [] []).2.1
    rw [h, List.length_replicate]
    omega
  · have h := (truncateString_limits [] (List.replicate 60 97) []).2.2.2.1
    rw [h, List.length_replicate]
    omega

/-- C8. When the `TZ` environment variable is present, `timezoneLocationName`
returns its value verbatim and consults no other source, whatever the other
sources hold. -/
theorem timezoneLocationName_tz_override :
    ∀ (env : TZEnv) (s : List Nat), env.tzVar = some s →
      timezoneLocationName env = some s := by
  intro env s h
  obtain ⟨tz, td, lt, etc⟩ := env
  cases h
  rfl

/-- Witness for C8: with `TZ=Europe/Paris` the resolver answers
`Europe/Paris`, even though the same environment without the override
resolves to a different zone (`Europe/Berlin` via timedatectl). -/
theorem timezoneLocationName_tz_override_witness :
    envParis.tzVar = some (bytes "Europe/Paris") ∧
    timezoneLocationName envParis = some (bytes "Europe/Paris") ∧
    timezoneLocationName
      ⟨none, envParis.timedatectlOut, envParis.localtimeSymlinkTarget,
        envParis.etcTimezone⟩ = some (bytes "Europe/Berlin") ∧
    bytes "Europe/Berlin" ≠ bytes "Europe/Paris" := by
  exact ⟨rfl, timezoneLocationName_tz_override envParis _ rfl, by decide, by decide⟩

/-- The concrete input of the spec's formatting example: the IEEE-754
binary64 value nearest to the decimal literal `1700000000.123456` is
`7130316800517812 / 2 ^ 22` (the significand is in `[2 ^ 52, 2 ^ 53)` and
the distance to the literal is under half an ulp, `2 ^ (-23)`). -/
theorem stampInput_models_float_literal :
    mkRat 7130316800517812 4194304 = (7130316800517812 : ℚ) / 4194304 ∧
    |(7130316800517812 : ℚ) / 4194304 - 1700000000123456 / 1000000| ≤ 1 / 2 ^ 23 := by
  constructor
  · rw [Rat.mkRat_eq_div]
    norm_num
  · rw [abs_of_nonneg (by norm_num)]
    norm_num

/-- C9. `formatStamp` always renders a fixed-point decimal: a nonempty
prefix free of `.` (an optional minus sign and decimal digits), then a
single `.`, then exactly three decimal digits; every output byte is a
sign, dot, or digit, so no scientific notation can occur. On the float64
value of `1700000000.123456` it produces `"1700000000.123"`. -/
theorem formatStamp_fixed_three_decimals :
    (∀ q : ℚ, ∃ pre d1 d2 d3,
      formatStamp q = pre ++ [46, d1, d2, d3] ∧ pre ≠ [] ∧ 46 ∉ pre ∧
      (48 ≤ d1 ∧ d1 ≤ 57) ∧ (48 ≤ d2 ∧ d2 ≤ 57) ∧ (48 ≤ d3 ∧ d3 ≤ 57) ∧
      ∀ b ∈ formatStamp q, b = 45 ∨ b = 46 ∨ (48 ≤ b ∧ b ≤ 57)) ∧
    formatStamp (mkRat 7130316800517812 4194304) = bytes "1700000000.123" := by
  constructor
  · intro q
    refine ⟨(if q < 0 then [45] else []) ++
        natStr (roundHalfEvenNat (q.num.natAbs * 1000) q.den / 1000),
      48 + roundHalfEvenNat (q.num.natAbs * 1000) q.den / 100 % 10,
      48 + roundHalfEvenNat (q.num.natAbs * 1000) q.den / 10 % 10,
      48 + roundHalfEvenNat (q.num.natAbs * 1000) q.den % 10,
      ?_, ?_, ?_, by omega, by omega, by omega, ?_⟩
    · simp [formatStamp, List.append_assoc]
    · intro h
      rcases List.append_eq_nil.mp h with ⟨-, h2⟩
      exact natStr_ne_nil _ h2
    · intro hmem
      rcases List.mem_append.mp hmem with h | h
      · split at h <;> simp at h
      · have := mem_natStr h
        omega
    · intro b hb
      simp only [formatStamp, List.append_assoc, List.mem_append] at hb
      rcases hb with h | h | h | h
      · split at h <;> simp at h
        omega
      · have := mem_natStr h
        omega
      · simp at h
        omega
      · simp only [List.mem_cons] at h
        rcases h with h | h | h | h <;> simp_all <;> omega
  · decide

/-- Witness for C9 at the concrete input `1`: the rendering has the
`pre.ddd` shape, and the spec's example input formats as claimed. -/
theorem formatStamp_fixed_three_decimals_witness :
    (∃ pre d1 d2 d3, formatStamp (1 : ℚ) = pre ++ [46, d1, d2, d3]) ∧
    formatStamp (mkRat 7130316800517812 4194304) = bytes "1700000000.123" := by
  obtain ⟨pre, d1, d2, d3, h, -⟩ := formatStamp_fixed_three_decimals.1 1
  exact ⟨⟨pre, d1, d2, d3, h⟩, formatStamp_fixed_three_decimals.2⟩

/-- C10. `sendPing` discards the `http.NewRequest` error and dereferences
the request unconditionally: with an identifier containing a control byte
the URL is invalid, the request is nil, and the delivery sequence panics
before any request reaches `Client.Do` — no attempt, no log-and-retry. -/
theorem sendPing_nil_request_panics :
    newRequestOk (uriFor cfgBase argsNul 1) = false ∧
    sendPing cfgBase argsNul oFail = ⟨[], [], .panicked⟩ := by decide

/-- When every remaining attempt transport-fails (and every request
builds), the loop visits every attempt number, sleeps after each failed
attempt above 2, and gives up. -/
theorem sendPingLoop_allFail (cfg : PingConfig) (a : PingArgs) (o : Nat → Outcome) :
    ∀ l : List Nat, (∀ i ∈ l, o i = .transportError) →
      (∀ i ∈ l, newRequestOk (uriFor cfg a i) = true) →
      sendPingLoop cfg a o l =
        ⟨l.map (fun i => (i, hostForAttempt cfg.dev i)),
          l.filter (fun i => 2 < i), .gaveUp⟩ := by
  intro l
  induction l with
  | nil => intro _ _; rfl
  | cons i rest ih =>
    intro ho hok
    have hoi := ho i (List.mem_cons_self i rest)
    have hoki := hok i (List.mem_cons_self i rest)
    have ih2 := ih (fun j hj => ho j (List.mem_cons_of_mem _ hj))
      (fun j hj => hok j (List.mem_cons_of_mem _ hj))
    simp only [sendPingLoop, hoki, if_true, hoi, ih2, List.map_cons, List.filter_cons]
    by_cases h : 2 < i <;> simp [h]

/-- The loop sleeps exactly after the performed attempts that are above 2
and failed with a transport error. -/
theorem sendPingLoop_sleeps (cfg : PingConfig) (a : PingArgs) (o : Nat → Outcome) :
    ∀ l : List Nat, (∀ i ∈ l, newRequestOk (uriFor cfg a i) = true) →
      (sendPingLoop cfg a o l).sleeps =
        ((sendPingLoop cfg a o l).requests.map Prod.fst).filter
          (fun i => decide (2 < i) && decide (o i = .transportError)) := by
  intro l
  induction l with
  | nil => intro _; rfl
  | cons i rest ih =>
    intro hok
    have hoki := hok i (List.mem_cons_self i rest)
    have ih2 := ih (fun j hj => hok j (List.mem_cons_of_mem _ hj))
    cases ho : o i with
    | transportError =>
      simp only [sendPingLoop, hoki, if_true, ho, ih2, List.map_cons, List.filter_cons,
        ho, decide_eq_true_eq]
      by_cases h : 2 < i <;> simp [h, ho]
    | response r s =>
      by_cases hs : (r && decide (s < 400)) = true
      · simp [sendPingLoop, hoki, ho, hs]
      · simp only [Bool.not_eq_true] at hs
        simp [sendPingLoop, hoki, ho, hs, ih2, List.filter_cons]

/-- The attempts the loop performs are the attempt numbers up to and
including the first successful one. -/
theorem sendPingLoop_attempts (cfg : PingConfig) (a : PingArgs) (o : Nat → Outcome) :
    ∀ l : List Nat, (∀ i ∈ l, newRequestOk (uriFor cfg a i) = true) →
      (sendPingLoop cfg a o l).requests.map Prod.fst = takeUntilSucc o l := by
  intro l
  induction l with
  | nil => intro _; rfl
  | cons i rest ih =>
    intro hok
    have hoki := hok i (List.mem_cons_self i rest)
    have ih2 := ih (fun j hj => hok j (List.mem_cons_of_mem _ hj))
    cases ho : o i with
    | transportError =>
      simp [sendPingLoop, hoki, ho, ih2, takeUntilSucc, attemptSucceeds]
    | response r s =>
      by_cases hs : (r && decide (s < 400)) = true
      · simp [sendPingLoop, hoki, ho, hs, takeUntilSucc, attemptSucceeds]
      · simp only [Bool.not_eq_true] at hs
        simp [sendPingLoop, hoki, ho, hs, ih2, takeUntilSucc, attemptSucceeds]

/-- The loop result is success exactly when one of the performed requests
had a successful outcome. -/
theorem sendPingLoop_result_iff (cfg : PingConfig) (a : PingArgs) (o : Nat → Outcome) :
    ∀ l : List Nat, (∀ i ∈ l, newRequestOk (uriFor cfg a i) = true) →
      ((sendPingLoop cfg a o l).result = .succeeded ↔
        ∃ p ∈ (sendPingLoop cfg a o l).requests, attemptSucceeds (o p.1) = true) := by
  intro l
  induction l with
  | nil => intro _; simp [sendPingLoop]
  | cons i rest ih =>
    intro hok
    have hoki := hok i (List.mem_cons_self i rest)
    have ih2 := ih (fun j hj => hok j (List.mem_cons_of_mem _ hj))
    cases ho : o i with
    | transportError =>
      simp only [sendPingLoop, hoki, if_true, ho]
      rw [ih2]
      constructor
      · rintro ⟨p, hp, hps⟩
        exact ⟨p, List.mem_cons_of_mem _ hp, hps⟩
      · rintro ⟨p, hp, hps⟩
        rcases List.mem_cons.mp hp with rfl | hp
        · simp [attemptSucceeds, ho] at hps
        · exact ⟨p, hp, hps⟩
    | response r s =>
      by_cases hs : (r && decide (s < 400)) = true
      · simp [sendPingLoop, hoki, ho, hs, attemptSucceeds]
      · simp only [Bool.not_eq_true] at hs
        simp only [sendPingLoop, hoki, if_true, ho, hs, Bool.false_eq_true, if_false]
        rw [ih2]
        constructor
        · rintro ⟨p, hp, hps⟩
          exact ⟨p, List.mem_cons_of_mem _ hp, hps⟩
        · rintro ⟨p, hp, hps⟩
          rcases List.mem_cons.mp hp with rfl | hp
          · simp [attemptSucceeds, ho, hs] at hps
          · exact ⟨p, hp, hps⟩

/-- Every performed request except possibly the last had a failing
outcome: the loop never continues past a success. -/
theorem sendPingLoop_dropLast (cfg : PingConfig) (a : PingArgs) (o : Nat → Outcome) :
    ∀ l : List Nat, (∀ i ∈ l, newRequestOk (uriFor cfg a i) = true) →
      ∀ p ∈ (sendPingLoop cfg a o l).requests.dropLast, attemptSucceeds (o p.1) = false := by
  intro l
  induction l with
  | nil => intro _; simp [sendPingLoop]
  | cons i rest ih =>
    intro hok
    have hoki := hok i (List.mem_cons_self i rest)
    have ih2 := ih (fun j hj => hok j (List.mem_cons_of_mem _ hj))
    have step : ∀ host,
        (sendPingLoop cfg a o rest).requests = [] →
        ∀ p ∈ ((i, host) :: (sendPingLoop cfg a o rest).requests).dropLast,
          attemptSucceeds (o p.1) = false := by
      intro host hnil p hp
      rw [hnil] at hp
      simp at hp
    cases ho : o i with
    | transportError =>
      simp only [sendPingLoop, hoki, if_true, ho]
      intro p hp
      rcases hreq : (sendPingLoop cfg a o rest).requests with _ | ⟨q, qs⟩
      · rw [hreq] at hp
        simp at hp
      · rw [hreq] at hp
        rw [List.dropLast_cons₂] at hp
        rcases List.mem_cons.mp hp with rfl | hp
        · simp [attemptSucceeds, ho]
        · rw [← hreq] at hp
          exact ih2 p hp
    | response r s =>
      by_cases hs : (r && decide (s < 400)) = true
      · simp [sendPingLoop, hoki, ho, hs]
      · simp only [Bool.not_eq_true] at hs
        simp only [sendPingLoop, hoki, if_true, ho, hs, Bool.false_eq_true, if_false]
        intro p hp
        rcases hreq : (sendPingLoop cfg a o rest).requests with _ | ⟨q, qs⟩
        · rw [hreq] at hp
          simp at hp
        · rw [hreq] at hp
          rw [List.dropLast_cons₂] at hp
          rcases List.mem_cons.mp hp with rfl | hp
          · simp [attemptSucceeds, ho, hs]
          · rw [← hreq] at hp
            exact ih2 p hp

/-- The head attempt is always performed. -/
theorem takeUntilSucc_head_mem (o : Nat → Outcome) (x : Nat) (l : List Nat) :
    x ∈ takeUntilSucc o (x :: l) := by
  simp only [takeUntilSucc]
  split <;> simp

/-- In a run over consecutive attempt numbers, a performed attempt that
fails and is not the last possible one is followed by attempt `n + 1`. -/
theorem takeUntilSucc_next (o : Nat → Outcome) :
    ∀ (len s n : Nat), n ∈ takeUntilSucc o (List.range' s len) →
      attemptSucceeds (o n) = false → n + 1 < s + len →
      n + 1 ∈ takeUntilSucc o (List.range' s len) := by
  intro len
  induction len with
  | zero => intro s n hmem _ _; simp [takeUntilSucc] at hmem
  | succ len ih =>
    intro s n hmem hfail hlt
    rw [List.range'_succ] at hmem ⊢
    simp only [takeUntilSucc] at hmem ⊢
    by_cases hsucc : attemptSucceeds (o s) = true
    · rw [if_pos hsucc] at hmem
      simp only [List.mem_singleton] at hmem
      subst hmem
      exact absurd hsucc (by simp [hfail])
    · rw [if_neg hsucc] at hmem
      rw [if_neg hsucc]
      rcases List.mem_cons.mp hmem with rfl | hmem
      · have hlen : 0 < len := by omega
        rcases len with _ | len'
        · omega
        · rw [List.range'_succ]
          exact List.mem_cons_of_mem _ (takeUntilSucc_head_mem o (n + 1) _)
      · exact List.mem_cons_of_mem _ (ih (s + 1) n hmem hfail (by omega))

/-- C2 (corrected). A delivery sequence in which all six attempts fail
with a transport error performs exactly six attempts and ends giving up,
but it sleeps 2 seconds four times, not three: once after each failed
attempt from the third on — before attempts 4, 5, 6, and once more after
the failed final attempt, just before the loop exits. -/
theorem sendPing_allfail_amended :
    ∀ (cfg : PingConfig) (a : PingArgs) (o : Nat → Outcome),
      (∀ i, o i = .transportError) →
      (∀ i ∈ [1, 2, 3, 4, 5, 6], newRequestOk (uriFor cfg a i) = true) →
      (sendPing cfg a o).requests.map Prod.fst = [1, 2, 3, 4, 5, 6] ∧
      (sendPing cfg a o).requests.length = 6 ∧
      (sendPing cfg a o).sleeps = [3, 4, 5, 6] ∧
      (sendPing cfg a o).sleeps.length = 4 ∧
      (sendPing cfg a o).result = .gaveUp := by
  intro cfg a o ho hok
  have h := sendPingLoop_allFail cfg a o [1, 2, 3, 4, 5, 6] (fun i _ => ho i) hok
  rw [sendPing, h]
  refine ⟨?_, ?_, ?_, ?_, rfl⟩ <;> simp

/-- Counterexample to C2 as stated: with every attempt transport-failing,
the engine sleeps four times (after attempts 3, 4, 5 and 6), not exactly
three times. -/
theorem sendPing_allfail_counterexample :
    (sendPing cfgBase argsBase oFail).requests.length = 6 ∧
    (sendPing cfgBase argsBase oFail).sleeps = [3, 4, 5, 6] ∧
    ¬ (sendPing cfgBase argsBase oFail).sleeps.length = 3 ∧
    (sendPing cfgBase argsBase oFail).result = .gaveUp := by decide

/-- Witness for C2 (amended) at a concrete all-fail run. -/
theorem sendPing_allfail_amended_witness :
    (sendPing cfgBase argsBase oFail).requests.map Prod.fst = [1, 2, 3, 4, 5, 6] ∧
    (sendPing cfgBase argsBase oFail).requests.length = 6 ∧
    (sendPing cfgBase argsBase oFail).sleeps = [3, 4, 5, 6] ∧
    (sendPing cfgBase argsBase oFail).sleeps.length = 4 ∧
    (sendPing cfgBase argsBase oFail).result = .gaveUp :=
  sendPing_allfail_amended cfgBase argsBase oFail (fun _ => rfl) (by decide)

/-- C3 (corrected). A response with status ≥ 400 (or an unreadable body)
moves the sequence to attempt `n + 1` exactly like a transport error, but
the engine never sleeps on that path: the 2-second sleep only follows
transport-error attempts above 2. The sleeps of a run are precisely its
performed attempts that are above 2 and transport-failed, and any
performed failing attempt below 6 is followed by attempt `n + 1`. -/
theorem sendPing_http_failure_amended :
    ∀ (cfg : PingConfig) (a : PingArgs) (o : Nat → Outcome),
      (∀ i ∈ [1, 2, 3, 4, 5, 6], newRequestOk (uriFor cfg a i) = true) →
      ((sendPing cfg a o).sleeps =
        ((sendPing cfg a o).requests.map Prod.fst).filter
          (fun i => decide (2 < i) && decide (o i = .transportError))) ∧
      (∀ n, n < 6 → n ∈ (sendPing cfg a o).requests.map Prod.fst →
        attemptSucceeds (o n) = false →
        n + 1 ∈ (sendPing cfg a o).requests.map Prod.fst) := by
  intro cfg a o hok
  constructor
  · exact sendPingLoop_sleeps cfg a o [1, 2, 3, 4, 5, 6] hok
  · intro n hn hmem hfail
    rw [sendPing, sendPingLoop_attempts cfg a o [1, 2, 3, 4, 5, 6] hok] at hmem ⊢
    have hr : [1, 2, 3, 4, 5, 6] = List.range' 1 6 := rfl
    rw [hr] at hmem ⊢
    exact takeUntilSucc_next o 6 1 n hmem hfail (by omega)

/-- Counterexample to C3 as stated: when every attempt yields a readable
500 response, the engine does retry through all six attempts, but it
sleeps zero times — in particular there is no 2-second sleep before
attempts 4, 5, 6, contradicting the claimed transport-error-equivalent
backoff. -/
theorem sendPing_http_failure_counterexample :
    (sendPing cfgBase argsBase oHttp500).requests.map Prod.fst = [1, 2, 3, 4, 5, 6] ∧
    (sendPing cfgBase argsBase oHttp500).sleeps = [] ∧
    (sendPing cfgBase argsBase oHttp500).result = .gaveUp := by decide

/-- Witness for C3 (amended) at a concrete run: one readable 404 response
then transport errors; the filter formula gives sleeps `[3, 4, 5, 6]`, and
failing attempt 1 is followed by attempt 2. -/
theorem sendPing_http_failure_amended_witness :
    ((sendPing cfgBase argsBase
        (fun i => if i = 1 then Outcome.response true 404 else Outcome.transportError)).sleeps =
      ((sendPing cfgBase argsBase
        (fun i => if i = 1 then Outcome.response true 404 else Outcome.transportError)).requests.map
          Prod.fst).filter
        (fun i => decide (2 < i) &&
          decide ((if i = 1 then Outcome.response true 404 else Outcome.transportError) =
            .transportError))) ∧
    2 ∈ (sendPing cfgBase argsBase
        (fun i => if i = 1 then Outcome.response true 404 else Outcome.transportError)).requests.map
      Prod.fst := by
  have h := sendPing_http_failure_amended cfgBase argsBase
    (fun i => if i = 1 then Outcome.response true 404 else Outcome.transportError) (by decide)
  exact ⟨h.1, h.2 1 (by omega) (by decide) (by decide)⟩

/-- C4 (confirmed). An attempt succeeds exactly when the response body is
fully readable with no transport error and the status code is below 400;
the run result is success exactly when some performed attempt succeeded;
every performed attempt before the last one failed (no attempt follows a
success); and a run whose first attempt transport-fails and whose second
returns a readable 200 performs exactly attempts 1 and 2, sleeps zero
times, and succeeds with no third request. -/
theorem sendPing_success_criterion :
    ∀ (cfg : PingConfig) (a : PingArgs) (o : Nat → Outcome),
      (∀ i ∈ [1, 2, 3, 4, 5, 6], newRequestOk (uriFor cfg a i) = true) →
      (∀ r s, attemptSucceeds (.response r s) = (r && decide (s < 400))) ∧
      attemptSucceeds .transportError = false ∧
      ((sendPing cfg a o).result = .succeeded ↔
        ∃ p ∈ (sendPing cfg a o).requests, attemptSucceeds (o p.1) = true) ∧
      (∀ p ∈ (sendPing cfg a o).requests.dropLast, attemptSucceeds (o p.1) = false) ∧
      (o 1 = .transportError → o 2 = .response true 200 →
        (sendPing cfg a o).requests.map Prod.fst = [1, 2] ∧
        (sendPing cfg a o).sleeps = [] ∧
        (sendPing cfg a o).result = .succeeded) := by
  intro cfg a o hok
  refine ⟨fun r s => rfl, rfl, sendPingLoop_result_iff cfg a o _ hok,
    sendPingLoop_dropLast cfg a o _ hok, fun h1 h2 => ?_⟩
  have hok1 := hok 1 (by simp)
  have hok2 := hok 2 (by simp)
  rw [sendPing]
  simp [sendPingLoop, hok1, hok2, h1, h2]

/-- Witness for C4: first attempt transport-fails, second returns 200; the
run performs exactly attempts 1 and 2, never sleeps, and succeeds. -/
theorem sendPing_success_criterion_witness :
    (sendPing cfgBase argsBase oSecondTry).requests.map Prod.fst = [1, 2] ∧
    (sendPing cfgBase argsBase oSecondTry).sleeps = [] ∧
    (sendPing cfgBase argsBase oSecondTry).result = .succeeded :=
  (sendPing_success_criterion cfgBase argsBase oSecondTry (by decide)).2.2.2.2
    (by decide) (by decide)

/-- The `/etc/timezone` fallback always returns: the file contents when
readable, the empty string otherwise. -/
theorem etcTimezoneStep_isSome (env : TZEnv) : (etcTimezoneStep env).isSome = true := by
  obtain ⟨tz, td, lt, etc⟩ := env
  cases etc <;> rfl

/-- Counterexample to C5 as stated: when `TZ` is unset, `timedatectl`
fails, and `/etc/localtime` is a symlink to the nonempty one-segment
target `UTC`, the resolver does not return a string — it panics (the Go
slice `symlinkParts[len(symlinkParts)-2:]` has a negative lower bound). -/
theorem timezoneLocationName_panics_counterexample :
    0 < (bytes "UTC").length ∧
    timezoneLocationName envUTCSymlink = none := by decide

/-- C5 (corrected). The resolver silently degrades from step to step and
returns the empty string when every step fails — except in one corner: if
`/etc/localtime` is a symlink whose nonempty target has fewer than two
`/`-separated segments, the symlink branch panics instead of returning.
Under the proviso that any nonempty symlink target splits into at least
two segments, the resolver always returns some string, and it returns the
empty string when every resolution step fails. -/
theorem timezoneLocationName_total_amended :
    ∀ env : TZEnv,
      (∀ t, env.localtimeSymlinkTarget = some t → 0 < t.length →
        2 ≤ (splitOnByte 47 t).length) →
      (timezoneLocationName env).isSome = true ∧
      (env.tzVar = none →
        (∀ out, env.timedatectlOut = some out → tdctlParse out = none) →
        (∀ t, env.localtimeSymlinkTarget = some t → t = []) →
        env.etcTimezone = none →
        timezoneLocationName env = some []) := by
  intro env hsym
  obtain ⟨tz, td, lt, etc⟩ := env
  constructor
  · cases tz with
    | some s => rfl
    | none =>
      cases td with
      | some out =>
        cases hpd : tdctlParse out with
        | some z => simp [timezoneLocationName, hpd]
        | none =>
          cases lt with
          | none => cases etc <;> simp [timezoneLocationName, hpd, etcTimezoneStep]
          | some symlink =>
            by_cases hl : 0 < symlink.length
            · have h2 := hsym symlink rfl hl
              simp [timezoneLocationName, hpd, hl, h2]
            · cases etc <;> simp [timezoneLocationName, hpd, hl, etcTimezoneStep]
      | none =>
        cases lt with
        | none => cases etc <;> simp [timezoneLocationName, etcTimezoneStep]
        | some symlink =>
          by_cases hl : 0 < symlink.length
          · have h2 := hsym symlink rfl hl
            simp [timezoneLocationName, hl, h2]
          · cases etc <;> simp [timezoneLocationName, hl, etcTimezoneStep]
  · intro htz htd hlt hetc
    have htz2 : tz = none := htz
    have hetc2 : etc = none := hetc
    subst htz2
    subst hetc2
    cases td with
    | none =>
      cases lt with
      | none => rfl
      | some symlink =>
        have ht : symlink = [] := hlt symlink rfl
        subst ht
        rfl
    | some out =>
      have h : tdctlParse out = none := htd out rfl
      cases lt with
      | none => simp [timezoneLocationName, h, etcTimezoneStep]
      | some symlink =>
        have ht : symlink = [] := hlt symlink rfl
        subst ht
        simp [timezoneLocationName, h, etcTimezoneStep]

/-- Witness for C5 (amended): with every resolution step failing, the
resolver returns, and returns the empty string. -/
theorem timezoneLocationName_total_amended_witness :
    (timezoneLocationName envAllFail).isSome = true ∧
    timezoneLocationName envAllFail = some [] := by
  have h := timezoneLocationName_total_amended envAllFail (fun t ht => by cases ht)
  exact ⟨h.1, h.2 rfl (fun out hout => by cases hout) (fun t ht => by cases ht) rfl⟩

/-- The query string is the `try` chunk followed by the `&`-prefixed
present segments, in order. -/
theorem queryString_eq_segments (cfg : PingConfig) (a : PingArgs) (i : Nat) :
    queryString cfg a i =
      (bytes "try=" ++ natStr i) ++ ((querySegs cfg a).map (fun s => 38 :: s)).flatten := by
  have h1 : bytes "&stamp=" = 38 :: bytes "stamp=" := by decide
  have h2 : bytes "&msg=" = 38 :: bytes "msg=" := by decide
  have h3 : bytes "&auth_key=" = 38 :: bytes "auth_key=" := by decide
  have h4 : bytes "&host=" = 38 :: bytes "host=" := by decide
  have h5 : bytes "&duration=" = 38 :: bytes "duration=" := by decide
  have h6 : bytes "&tag=" = 38 :: bytes "tag=" := by decide
  have h7 : bytes "&status_code=" = 38 :: bytes "status_code=" := by decide
  obtain ⟨ep, uid, msg, tg, ts, dur, ec⟩ := a
  cases dur <;> cases ec <;>
    simp only [queryString, querySegs, h1, h2, h3, h4, h5, h6, h7] <;>
    split_ifs <;>
    simp [List.append_assoc]

/-- Reading the name of a `name=value` chunk whose literal ends in `=`. -/
theorem takeWhile_name_eq (nm nmeq v : List Nat) (h : nmeq = nm ++ [61])
    (hnm : ∀ b ∈ nm, b ≠ 61) :
    (nmeq ++ v).takeWhile (fun b => b ≠ 61) = nm := by
  subst h
  rw [List.append_assoc]
  exact takeWhile_name _ hnm

/-- C6 (corrected). Provided the tag and the secondary auth key contain no
`&` byte (the spec makes URL-safe tags the caller's responsibility; both
are the only fields inserted unescaped), the parameters of the encoded
query string are exactly the supplied fields, in the fixed order `try`
(always), `stamp`, `msg`, `auth_key`, `host`, `duration`, `tag`,
`status_code`, with no empty chunk and no stray separator. Without that
proviso the equivalence fails (see the counterexample). -/
theorem queryString_params_iff_supplied :
    ∀ (cfg : PingConfig) (a : PingArgs) (i : Nat),
      (38 : Nat) ∉ a.tag → (38 : Nat) ∉ cfg.pingApiAuthKey →
      paramNames (queryString cfg a i) =
        [bytes "try"] ++
        (if 0 < a.timestamp then [bytes "stamp"] else []) ++
        (if 0 < a.message.length then [bytes "msg"] else []) ++
        (if 0 < cfg.pingApiAuthKey.length then [bytes "auth_key"] else []) ++
        (if 0 < cfg.hostname.length then [bytes "host"] else []) ++
        (match a.duration with | some _ => [bytes "duration"] | none => []) ++
        (if 0 < a.tag.length then [bytes "tag"] else []) ++
        (match a.exitCode with | some _ => [bytes "status_code"] | none => []) ∧
      [] ∉ splitOnByte 38 (queryString cfg a i) := by
  intro cfg a i htag hkey
  obtain ⟨ep, uid, msg, tg, ts, dur, ec⟩ := a
  have hform : ∀ s ∈ querySegs cfg ⟨ep, uid, msg, tg, ts, dur, ec⟩,
      s = bytes "stamp=" ++ formatStamp ts ∨
      s = bytes "msg=" ++ queryEscape (truncateString msg 2000) ∨
      s = bytes "auth_key=" ++ truncateString cfg.pingApiAuthKey 50 ∨
      s = bytes "host=" ++ queryEscape (truncateString cfg.hostname 50) ∨
      (∃ d, s = bytes "duration=" ++ formatStamp d) ∨
      s = bytes "tag=" ++ tg ∨
      (∃ c, s = bytes "status_code=" ++ intStr c) := by
    intro s hs
    cases dur <;> cases ec <;>
      simp only [querySegs, List.mem_append] at hs <;>
      rcases hs with ((((((hs | hs) | hs) | hs) | hs) | hs) | hs) <;>
      first
        | (split at hs <;> simp at hs <;> tauto)
        | (simp at hs <;> tauto)
  have hsegs : ∀ s ∈ querySegs cfg ⟨ep, uid, msg, tg, ts, dur, ec⟩, (38 : Nat) ∉ s := by
    intro s hs hmem
    rcases hform s hs with h | h | h | h | ⟨d, h⟩ | h | ⟨c, h⟩ <;> subst h <;>
      rcases List.mem_append.mp hmem with hm | hm
    · exact absurd hm (by decide)
    · have := mem_formatStamp hm
      omega
    · exact absurd hm (by decide)
    · exact queryEscape_not_mem_amp _ hm
    · exact absurd hm (by decide)
    · exact hkey (mem_truncateString hm)
    · exact absurd hm (by decide)
    · exact queryEscape_not_mem_amp _ hm
    · exact absurd hm (by decide)
    · have := mem_formatStamp hm
      omega
    · exact absurd hm (by decide)
    · exact htag hm
    · exact absurd hm (by decide)
    · rcases mem_intStr hm with h | h <;> omega
  have hne : ∀ s ∈ querySegs cfg ⟨ep, uid, msg, tg, ts, dur, ec⟩, s ≠ [] := by
    intro s hs hnil
    rcases hform s hs with h | h | h | h | ⟨d, h⟩ | h | ⟨c, h⟩ <;> subst h <;>
      rcases List.append_eq_nil.mp hnil with ⟨h1, -⟩ <;> revert h1 <;> decide
  have hc0 : (38 : Nat) ∉ bytes "try=" ++ natStr i := by
    intro h
    rcases List.mem_append.mp h with h | h
    · exact absurd h (by decide)
    · have := mem_natStr h
      omega
  have hsplit : splitOnByte 38 (queryString cfg ⟨ep, uid, msg, tg, ts, dur, ec⟩ i) =
      (bytes "try=" ++ natStr i) :: querySegs cfg ⟨ep, uid, msg, tg, ts, dur, ec⟩ := by
    rw [queryString_eq_segments]
    exact splitOnByte_build _ _ hc0 hsegs
  constructor
  · have e1 : ∀ v, (bytes "stamp=" ++ v).takeWhile (fun b => b ≠ 61) = bytes "stamp" :=
      fun v => takeWhile_name_eq _ _ v (by decide) (by decide)
    have e2 : ∀ v, (bytes "msg=" ++ v).takeWhile (fun b => b ≠ 61) = bytes "msg" :=
      fun v => takeWhile_name_eq _ _ v (by decide) (by decide)
    have e3 : ∀ v, (bytes "auth_key=" ++ v).takeWhile (fun b => b ≠ 61) = bytes "auth_key" :=
      fun v => takeWhile_name_eq _ _ v (by decide) (by decide)
    have e4 : ∀ v, (bytes "host=" ++ v).takeWhile (fun b => b ≠ 61) = bytes "host" :=
      fun v => takeWhile_name_eq _ _ v (by decide) (by decide)
    have e5 : ∀ v, (bytes "duration=" ++ v).takeWhile (fun b => b ≠ 61) = bytes "duration" :=
      fun v => takeWhile_name_eq _ _ v (by decide) (by decide)
    have e6 : ∀ v, (bytes "tag=" ++ v).takeWhile (fun b => b ≠ 61) = bytes "tag" :=
      fun v => takeWhile_name_eq _ _ v (by decide) (by decide)
    have e7 : ∀ v,
        (bytes "status_code=" ++ v).takeWhile (fun b => b ≠ 61) = bytes "status_code" :=
      fun v => takeWhile_name_eq _ _ v (by decide) (by decide)
    have e0 : (bytes "try=" ++ natStr i).takeWhile (fun b => b ≠ 61) = bytes "try" :=
      takeWhile_name_eq _ _ (natStr i) (by decide) (by decide)
    rw [paramNames, hsplit]
    simp only [List.map_cons, List.singleton_append, e0]
    congr 1
    cases dur <;> cases ec <;>
      simp only [querySegs, List.map_append,
        apply_ite (List.map (fun c : List Nat => c.takeWhile (fun b => b ≠ 61))),
        List.map_cons, List.map_nil, e1, e2, e3, e4, e5, e6, e7] <;>
      rfl
  · rw [hsplit]
    intro hmem
    rcases List.mem_cons.mp hmem with h | h
    · rcases List.append_eq_nil.mp h.symm with ⟨h1, -⟩
      exact absurd h1 (by decide)
    · exact hne [] h rfl

/-- Counterexample to C6 as stated: a notification with no timestamp but
a tag containing `&` (tag and auth key are inserted unescaped) yields a
query string that parses with a `stamp` parameter nobody supplied. -/
theorem queryString_tag_injection_counterexample :
    bytes "stamp" ∈ paramNames (queryString cfgBase argsTagAmp 1) ∧
    ¬ (0 < argsTagAmp.timestamp) := by decide

/-- Witness for C6 (amended): with every field supplied (and `&`-free tag
and auth key) the parameter names are exactly the eight fields in the
fixed order, with no empty chunk. -/
theorem queryString_params_iff_supplied_witness :
    paramNames (queryString cfgFull argsFull 1) =
      [bytes "try", bytes "stamp", bytes "msg", bytes "auth_key", bytes "host",
        bytes "duration", bytes "tag", bytes "status_code"] ∧
    [] ∉ splitOnByte 38 (queryString cfgFull argsFull 1) := by
  have h := queryString_params_iff_supplied cfgFull argsFull 1 (by decide) (by decide)
  exact ⟨h.1.trans (by decide), h.2⟩

end CronitorCLI
